import Mathlib

/-!
Verification of the ACP (proposal) markdown ingestion component of the
L1-front repository (src/data/acps/index.ts), shallowly embedded over
`List Char` strings.  JS strings are modelled as `List Char`; the
whitespace class of JS `trim` and regex morally-ASCII whitespace is
modelled by the ASCII whitespace characters; `toLowerCase` is modelled
on the ASCII range.  Regex matching in the source is embedded by
explicit leftmost-match scanning functions that follow the
backtracking semantics of each concrete pattern.
-/

namespace ACP

/-- JS strings are modelled as lists of characters. -/
abbrev Str := List Char

/-- ASCII whitespace, modelling the JS whitespace class used by
`trim` and by the regex class in the source patterns. -/
def isWsChar (c : Char) : Bool :=
  c = ' ' || c = '\t' || c = '\n' || c = '\r' || c = '\x0b' || c = '\x0c'

/-- ASCII lower-casing of one character, modelling JS `toLowerCase`
on the character range the component feeds it. -/
def toLowerChar (c : Char) : Char :=
  if 'A' ≤ c && c ≤ 'Z' then Char.ofNat (c.toNat + 32) else c

/-- `s.toLowerCase()`. -/
def toLowerStr (s : Str) : Str := s.map toLowerChar

/-- `s.trim()`: drop whitespace from both ends. -/
def trimStr (s : Str) : Str :=
  ((s.dropWhile isWsChar).reverse.dropWhile isWsChar).reverse

/-- String-literal convenience: convert a Lean string literal into the
`List Char` representation used throughout. -/
def s2l (s : String) : Str := s.toList

/-- `hay.includes(needle)`: substring containment, as JS `String.includes`. -/
def containsSub (hay needle : Str) : Bool :=
  needle.isPrefixOf hay ||
    match hay with
    | [] => false
    | _ :: t => containsSub t needle

/-- `s.startsWith(p)`. -/
def startsWithStr (s p : Str) : Bool := p.isPrefixOf s

/-- `s.split(sep)` for a single-character separator, keeping empty fields,
as JS `String.split`. -/
def splitOnChar (sep : Char) : Str → List Str
  | [] => [[]]
  | c :: t =>
    if c = sep then [] :: splitOnChar sep t
    else
      match splitOnChar sep t with
      | [] => [[c]]
      | f :: r => (c :: f) :: r

/-- The lines of a document: `markdown.split('\n')`. -/
def linesOf (s : Str) : List Str := splitOnChar '\n' s

/-- `text.split(/\s+/).filter(w => w.length > 0).length`: the number of
maximal non-whitespace runs in the text. -/
def countWords (s : Str) : Nat :=
  (s.foldl
    (fun (st : Bool × Nat) c =>
      if isWsChar c then (false, st.2)
      else (true, if st.1 then st.2 else st.2 + 1))
    (false, 0)).2

/-- `Math.ceil(wordCount / 200)`. -/
def readingTimeOf (wordCount : Nat) : Nat := (wordCount + 199) / 200

/-- The complexity tier enumeration `'Low' | 'Medium' | 'High'`. -/
inductive Complexity where
  | Low
  | Medium
  | High
deriving DecidableEq, Repr

/-- The high-complexity keyword list of `estimateComplexity`. -/
def highComplexityKeywords : List Str :=
  [s2l "consensus", s2l "protocol", s2l "cryptographic", s2l "algorithm",
   s2l "byzantine", s2l "merkle", s2l "signature", s2l "verification",
   s2l "validator", s2l "staking"]

/-- The medium-complexity keyword list of `estimateComplexity`. -/
def mediumComplexityKeywords : List Str :=
  [s2l "implementation", s2l "specification", s2l "interface",
   s2l "architecture", s2l "network", s2l "node", s2l "transaction",
   s2l "block"]

/-- `keywords.filter(k => content.includes(k)).length`: how many of the
given keywords occur (presence, not frequency) in `content`. -/
def keywordHits (keywords : List Str) (content : Str) : Nat :=
  (keywords.filter (fun k => containsSub content k)).length

/-- `estimateComplexity(markdown, wordCount)`: the source computes the
lower-cased content and the two hit counts once and then applies the
two-threshold cascade; the counts are written inline here. -/
def estimateComplexity (markdown : Str) (wordCount : Nat) : Complexity :=
  if wordCount > 4000 ∨ 3 ≤ keywordHits highComplexityKeywords (toLowerStr markdown) then
    Complexity.High
  else if wordCount > 2000 ∨ 1 ≤ keywordHits highComplexityKeywords (toLowerStr markdown)
      ∨ 3 ≤ keywordHits mediumComplexityKeywords (toLowerStr markdown) then
    Complexity.Medium
  else
    Complexity.Low

/-- Generic leftmost-match scanner: try the position matcher `f` at every
suffix of the input from the left and return its first success.  This is
how the embedding realises the leftmost-match rule of JS `String.match`. -/
def findScan {α : Type} (f : Str → Option α) : Str → Option α
  | [] => f []
  | l@(_ :: t) =>
    match f l with
    | some x => some x
    | none => findScan f t

/-- Generic scanner for boolean position patterns: does `f` hold at some
suffix (i.e. does the regex match anywhere in the line)? -/
def existsScan (f : Str → Bool) : Str → Bool
  | [] => f []
  | l@(_ :: t) => f l || existsScan f t

/-- A `\w` word character `[A-Za-z0-9_]`, used for the `\b` boundaries of
the status regex. -/
def isWordChar (c : Char) : Bool :=
  ('a' ≤ c && c ≤ 'z') || ('A' ≤ c && c ≤ 'Z') || ('0' ≤ c && c ≤ '9') || c = '_'

/-- Case-insensitive prefix test: does `l` begin with `pat` (given in
lower case), ignoring ASCII case? -/
def ciPrefix (pat l : Str) : Bool := toLowerStr (l.take pat.length) = pat

/-- `text.replace(/\*\*/g, '')`: delete every non-overlapping pair of
asterisks, left to right. -/
def removeDoubleStar : Str → Str
  | [] => []
  | '*' :: '*' :: t => removeDoubleStar t
  | c :: t => c :: removeDoubleStar t

/-- Fuel-driven worker for `removeParens`; the fuel is the input length,
and one unit is spent per consumed character. -/
def removeParensFuel : Nat → Str → Str
  | 0, s => s
  | _ + 1, [] => []
  | fuel + 1, c :: t =>
    if c = '(' then
      let inside := t.takeWhile (fun x => x ≠ ')')
      if inside.length < t.length then
        removeParensFuel fuel (t.drop (inside.length + 1))
      else c :: removeParensFuel fuel t
    else c :: removeParensFuel fuel t

/-- `s.replace(/\([^)]*\)/g, '')`: delete every parenthesized group (an
opening parenthesis up to the first closing one); an unclosed opening
parenthesis is kept, exactly as the regex leaves it unmatched. -/
def removeParens (s : Str) : Str := removeParensFuel s.length s

/-- The fixed status vocabulary of `parseStatus`, in lower case (the
regex is case-insensitive). -/
def statusVocabulary : List Str :=
  [s2l "activated", s2l "implementable", s2l "proposed", s2l "draft",
   s2l "stale", s2l "withdrawn", s2l "final"]

/-- First alternative `\[([^\]]+)\]` of the status regex, tried at one
position: a bracketed segment with a non-empty label. -/
def bracketAt (l : Str) : Option Str :=
  match l with
  | '[' :: r =>
    let cap := r.takeWhile (fun c => c ≠ ']')
    if cap.isEmpty then none
    else if cap.length < r.length then some cap
    else none
  | _ => none

/-- Second alternative `\b(Activated|…|Final)\b` (case-insensitive) of
the status regex, tried at one position; `prev` is the character just
before the position (`none` at the start of the string), needed for the
left `\b` boundary.  Returns the matched text as it occurs in the
input. -/
def vocabWordAt (prev : Option Char) (l : Str) : Option Str :=
  let leftBoundary := match prev with
    | none => true
    | some c => !isWordChar c
  if leftBoundary then
    statusVocabulary.findSome? (fun w =>
      if ciPrefix w l then
        match l.drop w.length with
        | [] => some (l.take w.length)
        | c :: _ => if isWordChar c then none else some (l.take w.length)
      else none)
  else none

/-- Leftmost match of `/\[([^\]]+)\]|\b(Activated|Implementable|Proposed|
Draft|Stale|Withdrawn|Final)\b/i`: scan positions left to right, at each
position trying the bracket alternative first, carrying the previous
character for the word boundary. -/
def statusScan : Option Char → Str → Option Str
  | _, [] => none
  | prev, c :: t =>
    match bracketAt (c :: t) with
    | some cap => some cap
    | none =>
      match vocabWordAt prev (c :: t) with
      | some w => some w
      | none => statusScan (some c) t

/-- `parseStatus(text)` from the source: clean the cell, take the first
regex match (bracket label or vocabulary word) or fall back to the
cleaned text, strip every parenthesized group, trim, and normalize an
empty result to "Unknown". -/
def parseStatus (text : Str) : Str :=
  let cleanText := removeDoubleStar (trimStr text)
  let status := trimStr ((statusScan none cleanText).getD cleanText)
  let r := trimStr (removeParens status)
  if r.isEmpty then s2l "Unknown" else r

/-- Pattern 1 of `parseDiscussionLink` at one position:
`\[Discussion\]\(([^)]+)\)` with the `i` flag. -/
def discussionP1At (l : Str) : Option Str :=
  if ciPrefix (s2l "[discussion](") l then
    let r := l.drop 13
    let cap := r.takeWhile (fun c => c ≠ ')')
    if cap.isEmpty then none
    else if cap.length < r.length then some cap
    else none
  else none

/-- Pattern 2 of `parseDiscussionLink` at one position:
`\[[^\]]*\]\(([^)]*github\.com[^)]*)\)` with the `i` flag — any link
whose target (the maximal run of non-`)` characters) contains
"github.com" case-insensitively. -/
def discussionP2At (l : Str) : Option Str :=
  match l with
  | '[' :: r =>
    let lab := r.takeWhile (fun c => c ≠ ']')
    (match r.drop lab.length with
     | ']' :: '(' :: r2 =>
       let cap := r2.takeWhile (fun c => c ≠ ')')
       if containsSub (toLowerStr cap) (s2l "github.com")
           && cap.length < r2.length then some cap
       else none
     | _ => none)
  | _ => none

/-- Pattern 3 of `parseDiscussionLink` at one position:
`(https?:\/\/[^\s)]+)` (case-sensitive). -/
def discussionP3At (l : Str) : Option Str :=
  let rest :=
    if startsWithStr l (s2l "https://") then some (l.take 8, l.drop 8)
    else if startsWithStr l (s2l "http://") then some (l.take 7, l.drop 7)
    else none
  match rest with
  | some (scheme, r) =>
    let cap := r.takeWhile (fun c => !isWsChar c && c ≠ ')')
    if cap.isEmpty then none else some (scheme ++ cap)
  | none => none

/-- `parseDiscussionLink(text)`: try the three patterns in order; the
guards on the second and third capture (`includes('discussions')` etc.)
are applied to the first regex match only, exactly as in the source. -/
def parseDiscussionLink (text : Str) : Option Str :=
  match findScan discussionP1At text with
  | some cap => some (trimStr cap)
  | none =>
    match findScan discussionP2At text with
    | some cap =>
      if !cap.isEmpty && containsSub cap (s2l "discussions") then some (trimStr cap)
      else
        match findScan discussionP3At text with
        | some u =>
          if containsSub u (s2l "github") && containsSub u (s2l "discussions") then
            some (trimStr u)
          else none
        | none => none
    | none =>
      match findScan discussionP3At text with
      | some u =>
        if containsSub u (s2l "github") && containsSub u (s2l "discussions") then
          some (trimStr u)
        else none
      | none => none

/-- Worker for `parseACPReferences`: the global matches of `/ACP-(\d+)/g`,
left to right and non-overlapping, each reported as its digit part. -/
def acpRefsFuel : Nat → Str → List Str
  | 0, _ => []
  | _ + 1, [] => []
  | fuel + 1, l@(_ :: t) =>
    if startsWithStr l (s2l "ACP-") then
      let ds := (l.drop 4).takeWhile Char.isDigit
      if ds.isEmpty then acpRefsFuel fuel t
      else ds :: acpRefsFuel fuel (l.drop (4 + ds.length))
    else acpRefsFuel fuel t

/-- `parseACPReferences(text)`: every `ACP-<digits>` occurrence, in
order, with the `ACP-` prefix removed. -/
def parseACPReferences (text : Str) : List Str := acpRefsFuel text.length text

/-- One parsed author entry `{ name, github }`. -/
structure Author where
  name : Str
  github : Str
deriving DecidableEq, Repr

/-- Worker for the author-cell split on `/[,\n]|\sand\s/`: scan left to
right, splitting at a comma or newline, or at the five-character
sequence whitespace-"and"-whitespace (all of which is consumed).  The
fuel is the input length. -/
def splitAuthorsAux : Nat → Str → Str → List Str
  | _, cur, [] => [cur.reverse]
  | 0, cur, s => [cur.reverse ++ s]
  | fuel + 1, cur, c :: t =>
    if c = ',' || c = '\n' then cur.reverse :: splitAuthorsAux fuel [] t
    else if isWsChar c && startsWithStr t (s2l "and")
        && (match t.drop 3 with | [] => false | d :: _ => isWsChar d) then
      cur.reverse :: splitAuthorsAux fuel [] (t.drop 4)
    else splitAuthorsAux fuel (c :: cur) t

/-- `cleanText.split(/[,\n]|\sand\s/)`. -/
def splitAuthorDelims (s : Str) : List Str := splitAuthorsAux s.length [] s

/-- Handle synthesis from a plain name:
`name.toLowerCase().replace(/\s+/g, '').replace(/[^a-z0-9]/g, '')`. -/
def synthHandle (name : Str) : Str :=
  ((toLowerStr name).filter (fun c => !isWsChar c)).filter
    (fun c => ('a' ≤ c && c ≤ 'z') || ('0' ≤ c && c ≤ '9'))

/-- Author pattern 1 at one position:
`\[([^\]]+)\]\(https?:\/\/github\.com\/([^)\/\s]+)[^)]*\)` — a markdown
link to a GitHub profile; returns (label, username path segment). -/
def mdLinkAt (l : Str) : Option (Str × Str) :=
  match l with
  | '[' :: r =>
    let cap1 := r.takeWhile (fun c => c ≠ ']')
    if cap1.isEmpty then none
    else
      match r.drop cap1.length with
      | ']' :: '(' :: r2 =>
        let r4 :=
          if startsWithStr r2 (s2l "https://github.com/") then some (r2.drop 19)
          else if startsWithStr r2 (s2l "http://github.com/") then some (r2.drop 18)
          else none
        (match r4 with
         | some r5 =>
           let cap2 := r5.takeWhile (fun c => c ≠ ')' && c ≠ '/' && !isWsChar c)
           if cap2.isEmpty then none
           else
             let r6 := r5.drop cap2.length
             if (r6.takeWhile (fun c => c ≠ ')')).length < r6.length then
               some (cap1, cap2)
             else none
         | none => none)
      | _ => none
  | _ => none

/-- The `[@]?([^)]+)\)` tail of author pattern 2 at one position,
including the backtrack in which the optional `@` is left to the
capturing group when nothing else follows it before the `)`. -/
def parenContentAt (r3 : Str) : Option Str :=
  match r3 with
  | '@' :: r4 =>
    let cap := r4.takeWhile (fun c => c ≠ ')')
    if !cap.isEmpty && cap.length < r4.length then some cap
    else
      let cap2 := r3.takeWhile (fun c => c ≠ ')')
      if !cap2.isEmpty && cap2.length < r3.length then some cap2 else none
  | _ =>
    let cap := r3.takeWhile (fun c => c ≠ ')')
    if !cap.isEmpty && cap.length < r3.length then some cap else none

/-- The `\s*\(\s*[@]?([^)]+)\)` remainder of author pattern 2 after the
lazy name group, at one position.  The second `\s*` is greedy but can
backtrack by one character so that the capture starts on the last
whitespace character when only the closing `)` follows the run. -/
def afterNameGroup (rest : Str) : Option Str :=
  let r1 := rest.dropWhile isWsChar
  match r1 with
  | '(' :: r2 =>
    let ws2 := r2.takeWhile isWsChar
    let r3 := r2.drop ws2.length
    (match parenContentAt r3 with
     | some cap => some cap
     | none =>
       match ws2.reverse, r3 with
       | w :: _, ')' :: _ => some [w]
       | _, _ => none)
  | _ => none

/-- The lazy group `([^(@\n]+?)` of author pattern 2: grow the name one
character at a time (shortest first), trying the remainder of the
pattern after each extension. -/
def tryNameGroup : Str → Str → Option (Str × Str)
  | acc, rest =>
    match afterNameGroup rest with
    | some g2 => some (acc.reverse, g2)
    | none =>
      match rest with
      | c :: t =>
        if c ≠ '(' && c ≠ '@' && c ≠ '\n' then tryNameGroup (c :: acc) t
        else none
      | [] => none

/-- Author pattern 2 at one position:
`([^(@\n]+?)\s*\(\s*[@]?([^)]+)\)` — returns (name group, parenthesized
group). -/
def nameHandleAt (l : Str) : Option (Str × Str) :=
  match l with
  | c :: t =>
    if c ≠ '(' && c ≠ '@' && c ≠ '\n' then tryNameGroup [c] t else none
  | [] => none

/-- The `(?:https?:\/\/)?(?:www\.)?github\.com\/([^\/\s\),]+)` username
extraction inside pattern 2, at one position: the optional scheme and
`www.` prefixes do not change the capture, so the match is located at
its `github.com/` core. -/
def ghUserAt (l : Str) : Option Str :=
  if startsWithStr l (s2l "github.com/") then
    let cap := (l.drop 11).takeWhile
      (fun c => c ≠ '/' && !isWsChar c && c ≠ ')' && c ≠ ',')
    if cap.isEmpty then none else some cap
  else none

/-- Author pattern 3 at one position:
`https?:\/\/github\.com\/([^\/\s\),]+)` — a bare GitHub profile URL. -/
def directUrlAt (l : Str) : Option Str :=
  let r :=
    if startsWithStr l (s2l "https://github.com/") then some (l.drop 19)
    else if startsWithStr l (s2l "http://github.com/") then some (l.drop 18)
    else none
  match r with
  | some r4 =>
    let cap := r4.takeWhile (fun c => c ≠ '/' && !isWsChar c && c ≠ ')' && c ≠ ',')
    if cap.isEmpty then none else some cap
  | none => none

/-- Author pattern 4 at one position: `([^<]+)\s*<[^>]+>` — a name
followed by an email in angle brackets; returns the name group. -/
def emailAt (l : Str) : Option Str :=
  match l with
  | [] => none
  | c :: _ =>
    if c = '<' then none
    else
      let cap := l.takeWhile (fun x => x ≠ '<')
      match l.drop cap.length with
      | '<' :: r2 =>
        let inner := r2.takeWhile (fun x => x ≠ '>')
        if !inner.isEmpty && inner.length < r2.length then some cap else none
      | _ => none

/-- Pattern 1 of `parseAuthors` on one segment, including its guards;
`none` falls through to the next pattern exactly as in the source. -/
def tryPattern1 (part : Str) : Option Author :=
  match findScan mdLinkAt part with
  | some (c1, c2) =>
    let name := trimStr c1
    let github := trimStr c2
    if !name.isEmpty && !github.isEmpty && name ≠ s2l "Author(s)" then
      some ⟨name, github⟩
    else none
  | none => none

/-- Pattern 2 of `parseAuthors` on one segment: `Name (@handle)` style,
with the username taken from a GitHub URL when the parenthesized part
contains one, else cleaned of `@` and whitespace up to the next comma. -/
def tryPattern2 (part : Str) : Option Author :=
  match findScan nameHandleAt part with
  | some (g1, g2) =>
    let name := trimStr g1
    let githubPart := trimStr g2
    let github :=
      match findScan ghUserAt githubPart with
      | some u => u
      | none =>
        (githubPart.filter (fun c => c ≠ '@' && !isWsChar c)).takeWhile
          (fun c => c ≠ ',')
    if !name.isEmpty && !github.isEmpty && name ≠ s2l "Author(s)" then
      some ⟨name, github⟩
    else none
  | none => none

/-- Pattern 3 of `parseAuthors` on one segment: a bare GitHub URL; the
username doubles as the display name. -/
def tryPattern3 (part : Str) : Option Author :=
  match findScan directUrlAt part with
  | some github => some ⟨github, github⟩
  | none => none

/-- Pattern 4 of `parseAuthors` on one segment: `Name <email>`; the
handle is synthesized from the name. -/
def tryPattern4 (part : Str) : Option Author :=
  match findScan emailAt part with
  | some cap =>
    let name := trimStr cap
    if !name.isEmpty && name ≠ s2l "Author(s)" then
      some ⟨name, synthHandle name⟩
    else none
  | none => none

/-- Pattern 5 of `parseAuthors` on one segment: the bare-name fallback
with its guards (length > 1, no separator artifacts, not a URL). -/
def tryPattern5 (part : Str) : Option Author :=
  let cleanPart := trimStr (part.filter (fun c => c ≠ '|' && c ≠ '@'))
  if !cleanPart.isEmpty && cleanPart ≠ s2l "Author(s)" && cleanPart.length > 1
      && !containsSub cleanPart (s2l "---")
      && !startsWithStr cleanPart (s2l "http") then
    some ⟨cleanPart, synthHandle cleanPart⟩
  else none

/-- Per-segment author recognition: the header/separator skip followed
by the five patterns in strict priority order, first success wins. -/
def parsePart (part : Str) : Option Author :=
  if containsSub part (s2l "Author(s)") || part = s2l "---" || part = s2l "|" then
    none
  else
    match tryPattern1 part with
    | some a => some a
    | none =>
      match tryPattern2 part with
      | some a => some a
      | none =>
        match tryPattern3 part with
        | some a => some a
        | none =>
          match tryPattern4 part with
          | some a => some a
          | none => tryPattern5 part

/-- `parseAuthors(text)`: clean the cell, split it into candidate
segments, trim them, drop empty ones, and recognize each segment with
`parsePart`, keeping segment order. -/
def parseAuthors (text : Str) : List Author :=
  let cleanText := removeDoubleStar (trimStr text)
  let parts := ((splitAuthorDelims cleanText).map trimStr).filter
    (fun p => !p.isEmpty)
  parts.filterMap parsePart

/-- `\s*\|` at one position: whitespace then a pipe. -/
def pipeAfterWs (r : Str) : Bool :=
  match r.dropWhile isWsChar with
  | '|' :: _ => true
  | _ => false

/-- The closing `\*\*?\s*\|` of a row-label regex at one position
(greedy: two asterisks are preferred; the one-asterisk backtrack after
a double asterisk would have to see a pipe at the remaining asterisk
and never succeeds, so it is not represented). -/
def rowPatClose (r : Str) : Bool :=
  match r with
  | '*' :: '*' :: r3 => pipeAfterWs r3
  | '*' :: r3 => pipeAfterWs r3
  | _ => false

/-- The `\*\*?<label>\*\*?\s*\|` core of a row-label regex, after the
leading pipe and whitespace.  For a double asterisk the one-asterisk
backtrack is also tried, as the regex engine would. -/
def rowPatOpen (label : Str) (r1 : Str) : Bool :=
  match r1 with
  | '*' :: '*' :: r2 =>
    (startsWithStr r2 label && rowPatClose (r2.drop label.length)) ||
    (startsWithStr ('*' :: r2) label && rowPatClose (('*' :: r2).drop label.length))
  | '*' :: r2 => startsWithStr r2 label && rowPatClose (r2.drop label.length)
  | _ => false

/-- `\|\s*\*\*?<label>\*\*?\s*\|` at one position. -/
def rowPatAt (label : Str) (l : Str) : Bool :=
  match l with
  | '|' :: r => rowPatOpen label (r.dropWhile isWsChar)
  | _ => false

/-- Does the line match the row-label regex anywhere? -/
def matchesRowPat (label : Str) (line : Str) : Bool :=
  existsScan (rowPatAt label) line

/-- `\|\s*ACP\s*\|` at one position (case-sensitive). -/
def acpPatAt (l : Str) : Bool :=
  match l with
  | '|' :: r =>
    let r1 := r.dropWhile isWsChar
    startsWithStr r1 (s2l "ACP") && pipeAfterWs (r1.drop 3)
  | _ => false

/-- The table-start test of the scan loop. -/
def isAcpHeaderLine (line : Str) : Bool :=
  containsSub line (s2l "| ACP |") || containsSub line (s2l "| **ACP** |")
    || existsScan acpPatAt line

/-- The Title row test. -/
def isTitleRow (line : Str) : Bool :=
  containsSub line (s2l "| **Title** |") || containsSub line (s2l "|Title|")
    || matchesRowPat (s2l "Title") line

/-- The Author(s) row test. -/
def isAuthorRow (line : Str) : Bool :=
  containsSub line (s2l "| **Author(s)** |") || containsSub line (s2l "|Author(s)|")
    || containsSub line (s2l "| Author(s) |")
    || matchesRowPat (s2l "Author(s)") line

/-- The Status row test. -/
def isStatusRow (line : Str) : Bool :=
  containsSub line (s2l "| **Status** |") || containsSub line (s2l "|Status|")
    || matchesRowPat (s2l "Status") line

/-- The Track row test. -/
def isTrackRow (line : Str) : Bool :=
  containsSub line (s2l "| **Track** |") || containsSub line (s2l "|Track|")
    || matchesRowPat (s2l "Track") line

/-- The Depends-On row test. -/
def isDependsRow (line : Str) : Bool :=
  containsSub line (s2l "| **Depends-On** |") || containsSub line (s2l "|Depends-On|")
    || matchesRowPat (s2l "Depends-On") line

/-- The Replaces row test. -/
def isReplacesRow (line : Str) : Bool :=
  containsSub line (s2l "| **Replaces** |") || containsSub line (s2l "|Replaces|")
    || matchesRowPat (s2l "Replaces") line

/-- The Superseded-By row test. -/
def isSupersededRow (line : Str) : Bool :=
  containsSub line (s2l "| **Superseded-By** |") || containsSub line (s2l "|Superseded-By|")
    || matchesRowPat (s2l "Superseded-By") line

/-- The second field slot of a pipe-split row (`line.split('|')[2]`),
present only when the split has at least three slots. -/
def cellOf (line : Str) : Option Str := ((splitOnChar '|' line).drop 2).head?

/-- The mutable variables of the `parseACPMarkdown` scan loop. -/
structure ScanState where
  title : Str
  authors : List Author
  status : Str
  track : Str
  discussion : Option Str
  dependencies : List Str
  replaces : List Str
  supersededBy : List Str
  inTable : Bool
deriving Repr

/-- The initial scan state (`discussion` starts as the empty string). -/
def initScan : ScanState :=
  { title := [], authors := [], status := [], track := [],
    discussion := some [], dependencies := [], replaces := [],
    supersededBy := [], inTable := false }

/-- The recognized-row else-if chain of the scan loop, applied to one
table line. -/
def applyRow (st : ScanState) (line : Str) : ScanState :=
  if isTitleRow line then
    match cellOf line with
    | some cell => { st with title := removeDoubleStar (trimStr cell) }
    | none => st
  else if isAuthorRow line then
    match cellOf line with
    | some cell => { st with authors := parseAuthors cell }
    | none => st
  else if isStatusRow line then
    match cellOf line with
    | some cell =>
      { st with status := parseStatus cell, discussion := parseDiscussionLink cell }
    | none => st
  else if isTrackRow line then
    match cellOf line with
    | some cell => { st with track := removeDoubleStar (trimStr cell) }
    | none => st
  else if isDependsRow line then
    match cellOf line with
    | some cell => { st with dependencies := parseACPReferences cell }
    | none => st
  else if isReplacesRow line then
    match cellOf line with
    | some cell => { st with replaces := parseACPReferences cell }
    | none => st
  else if isSupersededRow line then
    match cellOf line with
    | some cell => { st with supersededBy := parseACPReferences cell }
    | none => st
  else st

/-- The scan loop: skip blank lines, look for the table header, ignore
lines before it, stop at the first heading once inside the table, and
apply the row chain to the rest. -/
def scanTable (st : ScanState) : List Str → ScanState
  | [] => st
  | line :: rest =>
    if (trimStr line).isEmpty then scanTable st rest
    else if isAcpHeaderLine line then scanTable { st with inTable := true } rest
    else if !st.inTable then scanTable st rest
    else if startsWithStr line (s2l "##") || startsWithStr line (s2l "# ") then st
    else scanTable (applyRow st line) rest

/-- Largest-first search for the `\n\n` inside the whitespace run after
"Abstract", with the `[^#]+` capture taken greedily from just past the
two newlines; the largest backtrack position that leaves a non-empty
capture wins, as the regex engine would produce. -/
def nlnlCapture (ws2 r3 : Str) : Option Str :=
  match ws2 with
  | a :: b :: rest =>
    match nlnlCapture (b :: rest) r3 with
    | some cap => some cap
    | none =>
      if a = '\n' && b = '\n' then
        let cap := (rest ++ r3).takeWhile (fun c => c ≠ '#')
        if cap.isEmpty then none else some cap
      else none
  | _ => none

/-- The `##\s*Abstract\s*\n\n([^#]+)` pattern (case-insensitive on
"Abstract") at one position. -/
def abstractMatchAt (l : Str) : Option Str :=
  match l with
  | '#' :: '#' :: r =>
    let r1 := r.dropWhile isWsChar
    if toLowerStr (r1.take 8) = s2l "abstract" then
      let r2 := r1.drop 8
      let ws2 := r2.takeWhile isWsChar
      nlnlCapture ws2 (r2.drop ws2.length)
    else none
  | _ => none

/-- The capture of the first match of the Abstract-section regex in the
whole document. -/
def abstractCapture (markdown : Str) : Option Str :=
  findScan abstractMatchAt markdown

/-- `truncated.lastIndexOf(' ')` as an option (none for -1). -/
def lastSpaceIdx (s : Str) : Option Nat :=
  match s with
  | [] => none
  | c :: t =>
    match lastSpaceIdx t with
    | some i => some (i + 1)
    | none => if c = ' ' then some 0 else none

/-- `line.startsWith('##')`, the abort condition of the fallback loop
of `extractAbstract`. -/
def isBreakLine (line : Str) : Bool := startsWithStr line (s2l "##")

/-- The Track-row detection of the fallback loop:
`line.includes('| **Track** |') || line.includes('|Track|')`. -/
def isTrackMarkerLine (line : Str) : Bool :=
  containsSub line (s2l "| **Track** |") || containsSub line (s2l "|Track|")

/-- The returnable-line condition of the fallback loop: non-blank, not
starting a table row, not starting a heading. -/
def fallbackCandidate (line : Str) : Bool :=
  !(trimStr line).isEmpty && !startsWithStr line (s2l "|")
    && !startsWithStr line (s2l "#")

/-- The fallback loop of `extractAbstract`: after the Track row, return
the first non-empty, non-table, non-heading line, giving up at the
first `##` line once past the Track row. -/
def fallbackScan : Bool → List Str → Option Str
  | _, [] => none
  | afterTable, line :: rest =>
    if isBreakLine line && afterTable then none
    else if isTrackMarkerLine line then fallbackScan true rest
    else if afterTable && fallbackCandidate line then some line
    else fallbackScan afterTable rest

/-- `extractAbstract(markdown)`. -/
def extractAbstract (markdown : Str) : Str :=
  match abstractCapture markdown with
  | some cap =>
    let abst := trimStr cap
    if abst.length > 200 then
      let truncated := abst.take 200
      let cut :=
        match lastSpaceIdx truncated with
        | some i => if i > 0 then i else 200
        | none => 200
      truncated.take cut ++ s2l "..."
    else abst
  | none =>
    match fallbackScan false (linesOf markdown) with
    | some line =>
      if line.length > 200 then line.take 200 ++ s2l "..." else line
    | none => []

/-- The fixed ordered tag table of `extractTags`. -/
def tagMap : List (Str × List Str) :=
  [(s2l "subnet", [s2l "subnet", s2l "subnets", s2l "l1"]),
   (s2l "consensus", [s2l "consensus", s2l "validator", s2l "staking"]),
   (s2l "teleporter", [s2l "teleporter", s2l "messaging", s2l "interchain"]),
   (s2l "security", [s2l "security", s2l "cryptographic", s2l "signature"]),
   (s2l "performance", [s2l "performance", s2l "optimization", s2l "efficiency"]),
   (s2l "api", [s2l "api", s2l "interface", s2l "rpc"]),
   (s2l "governance", [s2l "governance", s2l "voting", s2l "proposal"]),
   (s2l "economics", [s2l "economics", s2l "fee", s2l "reward", s2l "token"]),
   (s2l "networking", [s2l "network", s2l "peer", s2l "connection", s2l "protocol"]),
   (s2l "virtual-machine", [s2l "vm", s2l "virtual machine", s2l "evm"])]

/-- `extractTags(markdown, title)`: a tag is included when any of its
keywords occurs in the lower-cased concatenation, and the result is
capped at five tags in table order. -/
def extractTags (markdown title : Str) : List Str :=
  let content := toLowerStr (markdown ++ ' ' :: title)
  ((tagMap.filter (fun e => e.2.any (fun k => containsSub content k))).map
    (fun e => e.1)).take 5

/-- One parsed proposal record.  Fields that the TypeScript interface
declares optional are `Option`-typed; `parseACPMarkdown` always fills
the derived ones. -/
structure LocalACP where
  number : Str
  title : Str
  authors : List Author
  status : Str
  track : Str
  content : Str
  discussion : Option Str
  abstract : Option Str
  complexity : Option Complexity
  tags : Option (List Str)
  wordCount : Option Nat
  readingTime : Option Nat
  dependencies : List Str
  replaces : List Str
  supersededBy : List Str
  folderName : Str
deriving DecidableEq, Repr

/-- `parseACPMarkdown(markdown, filePath)` after a successful folder
match (the extracted `number` and `folderName` are taken as arguments):
scan the metadata table, reject when Title, Status or Track is still
empty, and otherwise build the record with its derived metadata. -/
def parseACPMarkdown (markdown : Str) (number folderName : Str) : Option LocalACP :=
  let st := scanTable initScan (linesOf markdown)
  if st.title.isEmpty || st.status.isEmpty || st.track.isEmpty then none
  else
    let wordCount := countWords markdown
    some
      { number := number
        title := st.title
        authors := st.authors
        status := st.status
        track := st.track
        content := markdown
        discussion := st.discussion
        abstract := some (extractAbstract markdown)
        complexity := some (estimateComplexity markdown wordCount)
        tags := some (extractTags markdown st.title)
        wordCount := some wordCount
        readingTime := some (readingTimeOf wordCount)
        dependencies := st.dependencies
        replaces := st.replaces
        supersededBy := st.supersededBy
        folderName := folderName }

/-- The per-record predicate of `searchACPs` over the lower-cased
search term: substring containment against id (as stored), lower-cased
title, each author name, status, track, the optional abstract and each
optional tag. -/
def recordMatches (searchTerm : Str) (acp : LocalACP) : Bool :=
  containsSub acp.number searchTerm ||
  containsSub (toLowerStr acp.title) searchTerm ||
  acp.authors.any (fun a => containsSub (toLowerStr a.name) searchTerm) ||
  containsSub (toLowerStr acp.status) searchTerm ||
  containsSub (toLowerStr acp.track) searchTerm ||
  (match acp.abstract with
   | some a => containsSub (toLowerStr a) searchTerm
   | none => false) ||
  (match acp.tags with
   | some ts => ts.any (fun t => containsSub (toLowerStr t) searchTerm)
   | none => false)

/-- `searchACPs(acps, query)`. -/
def searchACPs (acps : List LocalACP) (query : Str) : List LocalACP :=
  if (trimStr query).isEmpty then acps
  else acps.filter (recordMatches (toLowerStr query))

/-- The optional filter criteria of `filterACPs`. -/
structure FilterCriteria where
  status : Option Str := none
  track : Option Str := none
  complexity : Option Str := none
  author : Option Str := none
  hasDiscussion : Option Bool := none
deriving DecidableEq, Repr

/-- JS `Boolean(acp.discussion)`: false for `undefined` and for the
empty string. -/
def discussionTruthy : Option Str → Bool
  | some s => !s.isEmpty
  | none => false

/-- The string form of a complexity tier, for the string-typed
complexity criterion. -/
def complexityStr : Complexity → Str
  | Complexity.Low => s2l "Low"
  | Complexity.Medium => s2l "Medium"
  | Complexity.High => s2l "High"

/-- `if (filters.status && acp.status !== filters.status) return false`
as the condition to keep the record: an absent or empty (falsy)
criterion imposes no constraint. -/
def statusCheck (o : Option Str) (acp : LocalACP) : Bool :=
  match o with
  | none => true
  | some s => s.isEmpty || acp.status = s

/-- The track early return of `filterACPs`. -/
def trackCheck (o : Option Str) (acp : LocalACP) : Bool :=
  match o with
  | none => true
  | some s => s.isEmpty || acp.track = s

/-- The complexity early return of `filterACPs`: the record's optional
complexity is compared as a string, so an absent complexity matches no
non-empty criterion. -/
def complexityCheck (o : Option Str) (acp : LocalACP) : Bool :=
  match o with
  | none => true
  | some s => s.isEmpty ||
    (match acp.complexity with
     | some c => complexityStr c = s
     | none => false)

/-- The author early return of `filterACPs`: case-insensitive substring
match against some author name. -/
def authorCheck (o : Option Str) (acp : LocalACP) : Bool :=
  match o with
  | none => true
  | some s => s.isEmpty ||
    acp.authors.any (fun a => containsSub (toLowerStr a.name) (toLowerStr s))

/-- The discussion early return of `filterACPs`:
`Boolean(acp.discussion) !== filters.hasDiscussion` rejects, when the
criterion is present. -/
def discussionCheck (o : Option Bool) (acp : LocalACP) : Bool :=
  match o with
  | none => true
  | some b => discussionTruthy acp.discussion = b

/-- The early-return chain of `filterACPs` as a conjunction, one
conjunct per early return, in source order. -/
def keepRecord (f : FilterCriteria) (acp : LocalACP) : Bool :=
  statusCheck f.status acp && trackCheck f.track acp &&
    complexityCheck f.complexity acp && authorCheck f.author acp &&
    discussionCheck f.hasDiscussion acp

/-- `filterACPs(acps, filters)`. -/
def filterACPs (acps : List LocalACP) (f : FilterCriteria) : List LocalACP :=
  acps.filter (keepRecord f)

/-- The sort keys of `sortACPs`. -/
inductive SortKey where
  | number
  | title
  | status
  | complexity
deriving DecidableEq, Repr

/-- The sort directions of `sortACPs`. -/
inductive SortDir where
  | asc
  | desc
deriving DecidableEq, Repr

/-- `a.localeCompare(b)` modelled as code-point lexicographic
comparison (an approximation of the locale-aware order; no claim
depends on the title/status keys). -/
def strCompare : Str → Str → Int
  | [], [] => 0
  | [], _ :: _ => -1
  | _ :: _, [] => 1
  | a :: s, b :: t =>
    if a < b then -1 else if b < a then 1 else strCompare s t

/-- A non-empty all-digit string, the domain of ACP ids. -/
def isDigitStr (s : Str) : Bool := !s.isEmpty && s.all Char.isDigit

/-- The numeric value of an all-digit string. -/
def digitsVal (s : Str) : Nat :=
  s.foldl (fun n c => n * 10 + (c.toNat - '0'.toNat)) 0

/-- JS `Number(s)` modelled on the nonempty-decimal-digit domain of ACP
ids; every other string maps to `none`, standing for the NaN-like
values whose comparator results `Array.sort` treats as 0.  (JS `Number`
also accepts signs, floats and whitespace; the theorems about the
numeric key restrict to the digit domain, where the model agrees.) -/
def jsNumber (s : Str) : Option Int :=
  if isDigitStr s then some (digitsVal s) else none

/-- `complexityOrder[a.complexity || 'Low']`: an absent complexity is
looked up as 'Low'. -/
def complexityRank (o : Option Complexity) : Nat :=
  match o.getD Complexity.Low with
  | Complexity.Low => 1
  | Complexity.Medium => 2
  | Complexity.High => 3

/-- The `switch (sortBy)` comparator of `sortACPs`, before the
direction is applied. -/
def baseCompare (key : SortKey) (a b : LocalACP) : Int :=
  match key with
  | SortKey.number =>
    (match jsNumber a.number, jsNumber b.number with
     | some x, some y => x - y
     | _, _ => 0)
  | SortKey.title => strCompare a.title b.title
  | SortKey.status => strCompare a.status b.status
  | SortKey.complexity =>
    (complexityRank a.complexity : Int) - complexityRank b.complexity

/-- `order === 'desc' ? -comparison : comparison`. -/
def sortCompare (key : SortKey) (dir : SortDir) (a b : LocalACP) : Int :=
  match dir with
  | SortDir.desc => - baseCompare key a b
  | SortDir.asc => baseCompare key a b

/-- `sortACPs(acps, sortBy, order)`: JS `Array.prototype.sort` is a
stable sort, modelled by a stable insertion sort under the
comparator-induced preorder; `[...acps]` means the input list is left
untouched and a new sequence is produced, which is inherent to the
functional embedding. -/
def sortACPs (acps : List LocalACP) (key : SortKey) (dir : SortDir) : List LocalACP :=
  List.insertionSort (fun a b => sortCompare key dir a b ≤ 0) acps

/-! ### Spec-side definitions and concrete example inputs -/

/-- A record with an undefined complexity, used to witness the
complexity default in sorting. -/
def noComplexityRec : LocalACP :=
  { number := s2l "3", title := s2l "NoCx", authors := [],
    status := s2l "Draft", track := s2l "Standards", content := [],
    discussion := none, abstract := none, complexity := none,
    tags := none, wordCount := none, readingTime := none,
    dependencies := [], replaces := [], supersededBy := [],
    folderName := s2l "3-nocx" }

/-- A record with complexity Low, used to witness the complexity
default in sorting. -/
def lowComplexityRec : LocalACP :=
  { noComplexityRec with
    number := s2l "4", title := s2l "LowCx",
    complexity := some Complexity.Low, folderName := s2l "4-lowcx" }

/-- Two records sharing the numeric id "1" but differing elsewhere:
under the stable sort they are a tie, kept in input order by both
directions. -/
def dupNumRecA : LocalACP :=
  { noComplexityRec with
    number := s2l "1", title := s2l "A", folderName := s2l "1-a" }

/-- The second record of the duplicated-id pair. -/
def dupNumRecB : LocalACP :=
  { noComplexityRec with
    number := s2l "1", title := s2l "B", folderName := s2l "1-b" }

/-- A criteria object that imposes no constraint: every string field is
absent or the empty string (both falsy in the source), and the
discussion flag is absent. -/
def noConstraints (f : FilterCriteria) : Prop :=
  (f.status = none ∨ f.status = some []) ∧
  (f.track = none ∨ f.track = some []) ∧
  (f.complexity = none ∨ f.complexity = some []) ∧
  (f.author = none ∨ f.author = some []) ∧
  f.hasDiscussion = none

/-- Merge of one optional criterion field, preferring the first. -/
def mergeField {β : Type} (x y : Option β) : Option β :=
  match x with
  | some v => some v
  | none => y

/-- The combination of two criteria objects into one, field by field. -/
def mergeCriteria (f g : FilterCriteria) : FilterCriteria where
  status := mergeField f.status g.status
  track := mergeField f.track g.track
  complexity := mergeField f.complexity g.complexity
  author := mergeField f.author g.author
  hasDiscussion := mergeField f.hasDiscussion g.hasDiscussion

/-- Two criteria objects set disjoint fields (the reading of "two
criteria" in the combination property: each single criterion occupies
its own field). -/
def disjointCriteria (f g : FilterCriteria) : Prop :=
  (f.status = none ∨ g.status = none) ∧
  (f.track = none ∨ g.track = none) ∧
  (f.complexity = none ∨ g.complexity = none) ∧
  (f.author = none ∨ g.author = none) ∧
  (f.hasDiscussion = none ∨ g.hasDiscussion = none)

/-- Order-preserving intersection: the records of the first sequence
that also occur in the second. -/
def listInter (l₁ l₂ : List LocalACP) : List LocalACP :=
  l₁.filter (fun a => decide (a ∈ l₂))

/-- A record with an author and a discussion link, for the filter and
search witnesses. -/
def authoredRec : LocalACP :=
  { noComplexityRec with
    number := s2l "5", title := s2l "Authored",
    authors := [⟨s2l "John Doe", s2l "jdoe"⟩],
    status := s2l "Proposed",
    discussion := some (s2l "https://github.com/x/discussions/5"),
    folderName := s2l "5-authored" }

/-- A single-criterion filter on status. -/
def critStatus : FilterCriteria := { status := some (s2l "Proposed") }

/-- A single-criterion filter on author substring. -/
def critAuthor : FilterCriteria := { author := some (s2l "john") }

/-- The search predicate as the specification words it: the lower-cased
query is a substring of the id, the title, some author's name, the
status, the track, the abstract, or some tag (all but the id compared
lower-cased). -/
def searchMatchesSpec (query : Str) (acp : LocalACP) : Prop :=
  containsSub acp.number (toLowerStr query) = true ∨
  containsSub (toLowerStr acp.title) (toLowerStr query) = true ∨
  (∃ a ∈ acp.authors, containsSub (toLowerStr a.name) (toLowerStr query) = true) ∨
  containsSub (toLowerStr acp.status) (toLowerStr query) = true ∨
  containsSub (toLowerStr acp.track) (toLowerStr query) = true ∨
  (∃ ab, acp.abstract = some ab ∧ containsSub (toLowerStr ab) (toLowerStr query) = true) ∨
  (∃ ts, acp.tags = some ts ∧ ∃ tg ∈ ts, containsSub (toLowerStr tg) (toLowerStr query) = true)

/-- A minimal valid document: table header plus Title, Status and Track
rows, with no Author(s), Depends-On, Replaces or Superseded-By rows. -/
def validMd : Str :=
  s2l "| ACP | 9 |\n| **Title** | T |\n| **Status** | Proposed |\n| **Track** | Standards |"

/-- The position (and capture) of the first bracketed segment in the
text, counted in characters from the start. -/
def findBracketIdx : Str → Option (Nat × Str)
  | [] => none
  | l@(_ :: t) =>
    match bracketAt l with
    | some cap => some (0, cap)
    | none => (findBracketIdx t).map (fun ic => (ic.1 + 1, ic.2))

/-- The position (and matched text) of the first vocabulary word in the
text, with its word boundaries; `prev` is the character before the
current position. -/
def findVocabIdx : Option Char → Str → Option (Nat × Str)
  | _, [] => none
  | prev, l@(c :: t) =>
    match vocabWordAt prev l with
    | some w => some (0, w)
    | none => (findVocabIdx (some c) t).map (fun ic => (ic.1 + 1, ic.2))

/-- Of the first bracketed label and the first vocabulary word,
whichever starts earlier wins; the bracket alternative is preferred at
the same start position. -/
def earliestMatch (b v : Option (Nat × Str)) : Option Str :=
  match b, v with
  | none, none => none
  | some bc, none => some bc.2
  | none, some vc => some vc.2
  | some bc, some vc => if bc.1 ≤ vc.1 then some bc.2 else some vc.2

/-- The status parser as the amended claim words it: clean the cell,
take whichever of the first bracketed label and the first vocabulary
word occurs earlier (bracket preferred on a tie), fall back to the
cleaned text, strip every parenthesized segment, trim, and normalize
an empty result to "Unknown". -/
def parseStatusSpec (text : Str) : Str :=
  let cleanText := removeDoubleStar (trimStr text)
  let body := (earliestMatch (findBracketIdx cleanText)
    (findVocabIdx none cleanText)).getD cleanText
  let r := trimStr (removeParens (trimStr body))
  if r.isEmpty then s2l "Unknown" else r

/-- The fallback search as the amended claim words it: take the lines
after the first Track table row; the result is the first line that is
non-empty, non-table (and not itself a Track marker) and non-heading,
unless a `##` line is reached first, in which case there is no
fallback. -/
def specFind (ls : List Str) : Option Str :=
  match ls.find? (fun l => isBreakLine l || (!isTrackMarkerLine l && fallbackCandidate l)) with
  | some l => if isBreakLine l then none else some l
  | none => none

/-- The whole fallback: drop everything up to and including the first
Track table row, then search; with no Track row there is no
fallback. -/
def specFallback (ls : List Str) : Option Str :=
  specFind ((ls.dropWhile (fun l => !isTrackMarkerLine l)).drop 1)

/-- Truncation as the claim words it: keep at most 200 characters,
cutting at the last space before the cut when there is one, and append
an ellipsis. -/
def truncateAtLastSpace (a : Str) : Str :=
  match (a.take 200).reverse.dropWhile (fun c => c ≠ ' ') with
  | [] => a.take 200 ++ s2l "..."
  | _ :: rest => rest.reverse ++ s2l "..."

/-- A fallback line longer than 200 characters whose last space before
the cut is early: the hard cut and the word-boundary cut differ. -/
def fallbackLine : Str := s2l "Start " ++ List.replicate 204 'a'

/-- A document with no Abstract section whose fallback line is
`fallbackLine`. -/
def fallbackDoc : Str := s2l "|Track| x |\n" ++ fallbackLine

/-! ### Theorems -/

/-- Inserting into a list sorted under `le` preserves sortedness, given
totality and transitivity of `le` on elements satisfying `P`. -/
theorem orderedInsert_pairwise_of {α : Type} (le : α → α → Prop) [DecidableRel le]
    (P : α → Prop)
    (htot : ∀ x y, P x → P y → le x y ∨ le y x)
    (htrans : ∀ x y z, P x → P y → P z → le x y → le y z → le x z) :
    ∀ (l : List α) (a : α), P a → (∀ x ∈ l, P x) → l.Pairwise le →
      (List.orderedInsert le a l).Pairwise le := by
  intro l
  induction l with
  | nil => intro a _ _ _; simp [List.orderedInsert]
  | cons b t ih =>
    intro a hPa hPl hp
    rcases List.pairwise_cons.mp hp with ⟨hb, ht⟩
    rw [List.orderedInsert]
    by_cases h : le a b
    · rw [if_pos h]
      refine List.pairwise_cons.mpr ⟨?_, hp⟩
      intro x hx
      rcases List.mem_cons.mp hx with rfl | hx
      · exact h
      · exact htrans a b x hPa (hPl b (List.mem_cons_self b t))
          (hPl x (List.mem_cons_of_mem b hx)) h (hb x hx)
    · rw [if_neg h]
      refine List.pairwise_cons.mpr
        ⟨?_, ih a hPa (fun x hx => hPl x (List.mem_cons_of_mem b hx)) ht⟩
      intro x hx
      rcases (List.mem_orderedInsert le).mp hx with h1 | hx
      · rw [h1]
        exact (htot a b hPa (hPl b (List.mem_cons_self b t))).resolve_left h
      · exact hb x hx

/-- Insertion sort produces a `le`-sorted list, given totality and
transitivity of `le` on elements satisfying `P`. -/
theorem insertionSort_pairwise_of {α : Type} (le : α → α → Prop) [DecidableRel le]
    (P : α → Prop)
    (htot : ∀ x y, P x → P y → le x y ∨ le y x)
    (htrans : ∀ x y z, P x → P y → P z → le x y → le y z → le x z) :
    ∀ (l : List α), (∀ x ∈ l, P x) → (List.insertionSort le l).Pairwise le := by
  intro l
  induction l with
  | nil => intro _; simp [List.insertionSort]
  | cons a t ih =>
    intro hPl
    rw [List.insertionSort]
    exact orderedInsert_pairwise_of le P htot htrans _ a
      (hPl a (List.mem_cons_self a t))
      (fun x hx => hPl x (List.mem_cons_of_mem a ((List.mem_insertionSort le).mp hx)))
      (ih (fun x hx => hPl x (List.mem_cons_of_mem a hx)))

/-- Two sorted lists that are permutations of each other are equal,
given antisymmetry of the order on the elements involved. -/
theorem eq_of_perm_of_pairwise {α : Type} (le : α → α → Prop) :
    ∀ (l₁ l₂ : List α), l₁.Perm l₂ → l₁.Pairwise le → l₂.Pairwise le →
      (∀ x ∈ l₁, ∀ y ∈ l₁, le x y → le y x → x = y) → l₁ = l₂ := by
  intro l₁
  induction l₁ with
  | nil =>
    intro l₂ h _ _ _
    exact (h.symm.eq_nil).symm
  | cons a t ih =>
    intro l₂ h hp₁ hp₂ hanti
    cases l₂ with
    | nil => exact absurd h.eq_nil (by simp)
    | cons b t₂ =>
      rcases List.pairwise_cons.mp hp₁ with ⟨ha1, ht1⟩
      rcases List.pairwise_cons.mp hp₂ with ⟨hb2, ht2⟩
      by_cases hab : a = b
      · subst hab
        have ht : t.Perm t₂ := h.cons_inv
        have : t = t₂ := by
          refine ih t₂ ht ht1 ht2 ?_
          intro x hx y hy hxy hyx
          exact hanti x (List.mem_cons_of_mem a hx) y (List.mem_cons_of_mem a hy) hxy hyx
        rw [this]
      · exfalso
        have haIn : a ∈ b :: t₂ := h.subset (List.mem_cons_self a t)
        have hbIn : b ∈ a :: t := h.symm.subset (List.mem_cons_self b t₂)
        rcases List.mem_cons.mp haIn with h1 | h1
        · exact hab h1
        rcases List.mem_cons.mp hbIn with h2 | h2
        · exact hab h2.symm
        have hle1 : le a b := ha1 b h2
        have hle2 : le b a := hb2 a h1
        exact hab (hanti a (List.mem_cons_self a t) b (List.mem_cons_of_mem a h2) hle1 hle2)

/-- On digit-string ids, the base comparator for the numeric key is
the difference of the digit values. -/
theorem base_number_digits {a b : LocalACP}
    (ha : isDigitStr a.number = true) (hb : isDigitStr b.number = true) :
    baseCompare SortKey.number a b =
      (digitsVal a.number : Int) - digitsVal b.number := by
  simp [baseCompare, jsNumber, ha, hb]

/-- The numeric base comparator is antisymmetric in its Int value. -/
theorem base_number_neg (a b : LocalACP) :
    baseCompare SortKey.number b a = - baseCompare SortKey.number a b := by
  unfold baseCompare
  cases hA : jsNumber a.number <;> cases hB : jsNumber b.number <;> simp

/-- C5 (amended): sorting by the numeric key yields a non-decreasing
sequence for 'asc' and a non-increasing one for 'desc' on digit-string
ids; each output is a permutation of the input (the input itself is
untouched, the embedding being functional); and when no two distinct
records share a numeric id, the 'desc' output is the exact reverse of
the 'asc' output.  With tied ids the reversal fails, because the sort
is stable in both directions (see the counterexample). -/
theorem sortACPs_number_ordering (acps : List LocalACP)
    (hd : ∀ r ∈ acps, isDigitStr r.number = true) :
    (sortACPs acps SortKey.number SortDir.asc).Pairwise
      (fun a b => digitsVal a.number ≤ digitsVal b.number) ∧
    (sortACPs acps SortKey.number SortDir.desc).Pairwise
      (fun a b => digitsVal b.number ≤ digitsVal a.number) ∧
    (sortACPs acps SortKey.number SortDir.asc).Perm acps ∧
    (sortACPs acps SortKey.number SortDir.desc).Perm acps ∧
    ((∀ x ∈ acps, ∀ y ∈ acps, digitsVal x.number = digitsVal y.number → x = y) →
      sortACPs acps SortKey.number SortDir.desc =
        (sortACPs acps SortKey.number SortDir.asc).reverse) := by
  have hApm : (sortACPs acps SortKey.number SortDir.asc).Perm acps :=
    List.perm_insertionSort _ _
  have hDpm : (sortACPs acps SortKey.number SortDir.desc).Perm acps :=
    List.perm_insertionSort _ _
  have hAmem : ∀ x ∈ sortACPs acps SortKey.number SortDir.asc, x ∈ acps :=
    fun x hx => hApm.subset hx
  have hDmem : ∀ x ∈ sortACPs acps SortKey.number SortDir.desc, x ∈ acps :=
    fun x hx => hDpm.subset hx
  have hascIff : ∀ x y : LocalACP, isDigitStr x.number = true →
      isDigitStr y.number = true →
      (sortCompare SortKey.number SortDir.asc x y ≤ 0 ↔
        digitsVal x.number ≤ digitsVal y.number) := by
    intro x y hx hy
    rw [sortCompare, base_number_digits hx hy]
    omega
  have hdescIff : ∀ x y : LocalACP, isDigitStr x.number = true →
      isDigitStr y.number = true →
      (sortCompare SortKey.number SortDir.desc x y ≤ 0 ↔
        digitsVal y.number ≤ digitsVal x.number) := by
    intro x y hx hy
    rw [sortCompare, base_number_digits hx hy]
    omega
  have hAsorted : (sortACPs acps SortKey.number SortDir.asc).Pairwise
      (fun a b => sortCompare SortKey.number SortDir.asc a b ≤ 0) := by
    refine insertionSort_pairwise_of _ (fun r => isDigitStr r.number = true) ?_ ?_ acps hd
    · intro x y hx hy
      rw [hascIff x y hx hy, hascIff y x hy hx]
      omega
    · intro x y z hx hy hz
      rw [hascIff x y hx hy, hascIff y z hy hz, hascIff x z hx hz]
      omega
  have hDsorted : (sortACPs acps SortKey.number SortDir.desc).Pairwise
      (fun a b => sortCompare SortKey.number SortDir.desc a b ≤ 0) := by
    refine insertionSort_pairwise_of _ (fun r => isDigitStr r.number = true) ?_ ?_ acps hd
    · intro x y hx hy
      rw [hdescIff x y hx hy, hdescIff y x hy hx]
      omega
    · intro x y z hx hy hz
      rw [hdescIff x y hx hy, hdescIff y z hy hz, hdescIff x z hx hz]
      omega
  have hApair : (sortACPs acps SortKey.number SortDir.asc).Pairwise
      (fun a b => digitsVal a.number ≤ digitsVal b.number) :=
    hAsorted.imp_of_mem (fun hx hy h =>
      (hascIff _ _ (hd _ (hAmem _ hx)) (hd _ (hAmem _ hy))).mp h)
  have hDpair : (sortACPs acps SortKey.number SortDir.desc).Pairwise
      (fun a b => digitsVal b.number ≤ digitsVal a.number) :=
    hDsorted.imp_of_mem (fun hx hy h =>
      (hdescIff _ _ (hd _ (hDmem _ hx)) (hd _ (hDmem _ hy))).mp h)
  refine ⟨hApair, hDpair, hApm, hDpm, ?_⟩
  intro hinj
  have hRevPair : (sortACPs acps SortKey.number SortDir.asc).reverse.Pairwise
      (fun a b => sortCompare SortKey.number SortDir.desc a b ≤ 0) := by
    rw [List.pairwise_reverse]
    refine hAsorted.imp_of_mem (fun {a b} _ _ h => ?_)
    simp only [sortCompare] at h ⊢
    rw [base_number_neg]
    omega
  refine eq_of_perm_of_pairwise _ _ _
    (hDpm.trans (hApm.symm.trans (List.reverse_perm _).symm)) hDsorted hRevPair ?_
  intro x hx y hy hxy hyx
  have hx' := hd x (hDmem x hx)
  have hy' := hd y (hDmem y hy)
  rw [hdescIff x y hx' hy'] at hxy
  rw [hdescIff y x hy' hx'] at hyx
  exact hinj x (hDmem x hx) y (hDmem y hy) (Nat.le_antisymm hyx hxy)

/-- Witness for C5 at a concrete two-record collection with distinct
ids. -/
theorem sortACPs_number_ordering_witness :
    sortACPs [noComplexityRec, lowComplexityRec] SortKey.number SortDir.desc =
      (sortACPs [noComplexityRec, lowComplexityRec] SortKey.number SortDir.asc).reverse :=
  (sortACPs_number_ordering [noComplexityRec, lowComplexityRec]
    (by decide)).2.2.2.2 (by decide)

/-- C5 counterexample: with two records sharing the numeric id "1",
the 'desc' output is not the reverse of the 'asc' output — both
directions keep the tie in input order, because the sort is stable. -/
theorem sortACPs_reverse_counterexample :
    sortACPs [dupNumRecA, dupNumRecB] SortKey.number SortDir.desc ≠
      (sortACPs [dupNumRecA, dupNumRecB] SortKey.number SortDir.asc).reverse := by
  decide

/-- C2: for every document text and word count, `estimateComplexity`
returns High iff the word count exceeds 4000 or at least 3 of the fixed
high-complexity keywords occur (presence, not frequency) in the
lower-cased text; otherwise Medium iff the word count exceeds 2000 or
at least one high keyword occurs or at least 3 medium keywords occur;
otherwise Low. -/
theorem estimateComplexity_characterization (md : Str) (wc : Nat) :
    (estimateComplexity md wc = Complexity.High ↔
      4000 < wc ∨ 3 ≤ keywordHits highComplexityKeywords (toLowerStr md)) ∧
    (estimateComplexity md wc = Complexity.Medium ↔
      ¬(4000 < wc ∨ 3 ≤ keywordHits highComplexityKeywords (toLowerStr md)) ∧
        (2000 < wc ∨ 1 ≤ keywordHits highComplexityKeywords (toLowerStr md) ∨
          3 ≤ keywordHits mediumComplexityKeywords (toLowerStr md))) ∧
    (estimateComplexity md wc = Complexity.Low ↔
      ¬(4000 < wc ∨ 3 ≤ keywordHits highComplexityKeywords (toLowerStr md)) ∧
      ¬(2000 < wc ∨ 1 ≤ keywordHits highComplexityKeywords (toLowerStr md) ∨
          3 ≤ keywordHits mediumComplexityKeywords (toLowerStr md))) := by
  unfold estimateComplexity
  by_cases h1 : 4000 < wc ∨ 3 ≤ keywordHits highComplexityKeywords (toLowerStr md)
  · simp [h1]
  · by_cases h2 : 2000 < wc ∨ 1 ≤ keywordHits highComplexityKeywords (toLowerStr md)
        ∨ 3 ≤ keywordHits mediumComplexityKeywords (toLowerStr md)
    · simp [h1, h2]
    · simp [h1, h2]

/-- C10: `sortACPs` with the complexity key treats an absent complexity
as Low: such a record compares equal to a Low record in both
directions, and sorting a two-element list of one of each leaves it
unchanged either way round (a tie under the stable sort). -/
theorem sortACPs_complexity_default (a b : LocalACP) (dir : SortDir)
    (ha : a.complexity = none) (hb : b.complexity = some Complexity.Low) :
    sortCompare SortKey.complexity dir a b = 0 ∧
    sortCompare SortKey.complexity dir b a = 0 ∧
    sortACPs [a, b] SortKey.complexity dir = [a, b] ∧
    sortACPs [b, a] SortKey.complexity dir = [b, a] := by
  have hab : baseCompare SortKey.complexity a b = 0 := by
    simp [baseCompare, complexityRank, ha, hb]
  have hba : baseCompare SortKey.complexity b a = 0 := by
    simp [baseCompare, complexityRank, ha, hb]
  have h1 : sortCompare SortKey.complexity dir a b = 0 := by
    cases dir <;> simp [sortCompare, hab]
  have h2 : sortCompare SortKey.complexity dir b a = 0 := by
    cases dir <;> simp [sortCompare, hba]
  refine ⟨h1, h2, ?_, ?_⟩
  · simp [sortACPs, List.insertionSort, List.orderedInsert, h1]
  · simp [sortACPs, List.insertionSort, List.orderedInsert, h2]

/-- Witness for C10 at concrete records. -/
theorem sortACPs_complexity_default_witness :
    sortCompare SortKey.complexity SortDir.asc noComplexityRec lowComplexityRec = 0 ∧
    sortCompare SortKey.complexity SortDir.asc lowComplexityRec noComplexityRec = 0 ∧
    sortACPs [noComplexityRec, lowComplexityRec] SortKey.complexity SortDir.asc
      = [noComplexityRec, lowComplexityRec] ∧
    sortACPs [lowComplexityRec, noComplexityRec] SortKey.complexity SortDir.asc
      = [lowComplexityRec, noComplexityRec] :=
  sortACPs_complexity_default noComplexityRec lowComplexityRec SortDir.asc rfl rfl

/-- A per-field check applied to a merged field splits into the
conjunction of the checks of the two fields, when the fields are not
both set and the check accepts an absent field. -/
theorem check_mergeField {β : Type} (chk : Option β → Bool) (hnone : chk none = true) :
    ∀ x y : Option β, (x = none ∨ y = none) →
      chk (mergeField x y) = (chk x && chk y) := by
  intro x y h
  rcases h with h | h
  · subst h
    simp [mergeField, hnone]
  · subst h
    cases x <;> simp [mergeField, hnone]

/-- The keep predicate of a merged pair of disjoint criteria is the
conjunction of the two keep predicates. -/
theorem keepRecord_merge (f g : FilterCriteria) (hd : disjointCriteria f g)
    (a : LocalACP) :
    keepRecord (mergeCriteria f g) a = (keepRecord f a && keepRecord g a) := by
  obtain ⟨h1, h2, h3, h4, h5⟩ := hd
  unfold keepRecord mergeCriteria
  rw [check_mergeField (statusCheck · a) rfl _ _ h1,
    check_mergeField (trackCheck · a) rfl _ _ h2,
    check_mergeField (complexityCheck · a) rfl _ _ h3,
    check_mergeField (authorCheck · a) rfl _ _ h4,
    check_mergeField (discussionCheck · a) rfl _ _ h5]
  cases statusCheck f.status a <;> cases trackCheck f.track a <;>
    cases complexityCheck f.complexity a <;> cases authorCheck f.author a <;>
    cases discussionCheck f.hasDiscussion a <;>
    cases statusCheck g.status a <;> cases trackCheck g.track a <;>
    cases complexityCheck g.complexity a <;> cases authorCheck g.author a <;>
    cases discussionCheck g.hasDiscussion a <;> rfl

/-- C6: `filterACPs` with every criterion absent or empty returns the
input unchanged, and filtering with two disjoint criteria set at once
equals the order-preserving intersection of filtering with each
criterion alone. -/
theorem filterACPs_identity_and_conjunction :
    (∀ (acps : List LocalACP) (f : FilterCriteria),
      noConstraints f → filterACPs acps f = acps) ∧
    (∀ (acps : List LocalACP) (f g : FilterCriteria),
      disjointCriteria f g →
        filterACPs acps (mergeCriteria f g) =
          listInter (filterACPs acps f) (filterACPs acps g)) := by
  constructor
  · intro acps f hf
    obtain ⟨h1, h2, h3, h4, h5⟩ := hf
    unfold filterACPs
    apply List.filter_eq_self.mpr
    intro a _
    unfold keepRecord
    rcases h1 with h1 | h1 <;> rcases h2 with h2 | h2 <;>
      rcases h3 with h3 | h3 <;> rcases h4 with h4 | h4 <;>
      simp [statusCheck, trackCheck, complexityCheck, authorCheck,
        discussionCheck, h1, h2, h3, h4, h5, List.isEmpty_nil]
  · intro acps f g hd
    unfold filterACPs listInter
    rw [List.filter_filter]
    refine List.filter_congr ?_
    intro a ha
    rw [keepRecord_merge f g hd a]
    have hmem : (a ∈ acps.filter (keepRecord g)) ↔ keepRecord g a = true := by
      rw [List.mem_filter]
      exact and_iff_right ha
    cases hg : keepRecord g a
    · have : ¬(a ∈ acps.filter (keepRecord g)) := by
        rw [hmem, hg]; simp
      simp [this]
    · have : a ∈ acps.filter (keepRecord g) := hmem.mpr hg
      simp [this]

/-- Witness for C6 at a concrete collection and concrete status/author
criteria. -/
theorem filterACPs_identity_and_conjunction_witness :
    filterACPs [noComplexityRec, authoredRec] ({} : FilterCriteria)
      = [noComplexityRec, authoredRec] ∧
    filterACPs [noComplexityRec, authoredRec] (mergeCriteria critStatus critAuthor)
      = listInter (filterACPs [noComplexityRec, authoredRec] critStatus)
          (filterACPs [noComplexityRec, authoredRec] critAuthor) :=
  ⟨filterACPs_identity_and_conjunction.1 [noComplexityRec, authoredRec] {}
      ⟨Or.inl rfl, Or.inl rfl, Or.inl rfl, Or.inl rfl, rfl⟩,
    filterACPs_identity_and_conjunction.2 [noComplexityRec, authoredRec]
      critStatus critAuthor
      ⟨Or.inr rfl, Or.inl rfl, Or.inl rfl, Or.inl rfl, Or.inl rfl⟩⟩

/-- The compiled match predicate agrees with the specification's
field-by-field description. -/
theorem recordMatches_iff_spec (q : Str) (acp : LocalACP) :
    recordMatches (toLowerStr q) acp = true ↔ searchMatchesSpec q acp := by
  unfold recordMatches searchMatchesSpec
  rcases hab : acp.abstract with _ | ab <;> rcases hts : acp.tags with _ | ts <;>
    simp [List.any_eq_true, or_assoc]

/-- C7: `searchACPs` returns the input unchanged for an empty or
whitespace-only query; its output is always a sublist of the input
(same relative order); and for a non-blank query a record is in the
output exactly when it is in the input and some searched field contains
the lower-cased query. -/
theorem searchACPs_spec (acps : List LocalACP) (q : Str) :
    (trimStr q = [] → searchACPs acps q = acps) ∧
    (searchACPs acps q).Sublist acps ∧
    (trimStr q ≠ [] →
      ∀ r, r ∈ searchACPs acps q ↔ r ∈ acps ∧ searchMatchesSpec q r) := by
  refine ⟨?_, ?_, ?_⟩
  · intro h
    simp [searchACPs, h]
  · unfold searchACPs
    split
    · exact List.Sublist.refl acps
    · exact List.filter_sublist acps
  · intro h r
    unfold searchACPs
    rw [if_neg (by simpa using h)]
    rw [List.mem_filter, recordMatches_iff_spec]

/-- Witness for C7 at a concrete record, a whitespace query and a
non-blank query. -/
theorem searchACPs_spec_witness :
    searchACPs [authoredRec] (s2l " ") = [authoredRec] ∧
    (authoredRec ∈ searchACPs [authoredRec] (s2l "john") ↔
      authoredRec ∈ [authoredRec] ∧ searchMatchesSpec (s2l "john") authoredRec) :=
  ⟨(searchACPs_spec [authoredRec] (s2l " ")).1 (by decide),
    (searchACPs_spec [authoredRec] (s2l "john")).2.2 (by decide) authoredRec⟩

/-- C8: `searchACPs` lowercases the query but never trims it: for a
non-blank query the match is against the lower-cased query verbatim,
whitespace padding included, so "Proposed" finds a record whose status
is Proposed while " Proposed " does not. -/
theorem searchACPs_no_trim (acps : List LocalACP) (q : Str)
    (h : trimStr q ≠ []) :
    (∀ r, r ∈ searchACPs acps q ↔
      r ∈ acps ∧ recordMatches (toLowerStr q) r = true) ∧
    searchACPs [authoredRec] (s2l "Proposed") = [authoredRec] ∧
    searchACPs [authoredRec] (s2l " Proposed ") = [] := by
  refine ⟨?_, by decide, by decide⟩
  intro r
  unfold searchACPs
  rw [if_neg (by simpa using h)]
  exact List.mem_filter

/-- Witness for C8 at the padded query. -/
theorem searchACPs_no_trim_witness :
    searchACPs [authoredRec] (s2l " Proposed ") = [] :=
  (searchACPs_no_trim [authoredRec] (s2l " Proposed ") (by decide)).2.2

/-- A property holding of every success of the position matcher holds
of scan results. -/
theorem findScan_prop {α : Type} (f : Str → Option α) (P : α → Prop)
    (hf : ∀ l x, f l = some x → P x) :
    ∀ l x, findScan f l = some x → P x := by
  intro l
  induction l with
  | nil => intro x h; exact hf [] x h
  | cons c t ih =>
    intro x h
    cases hfc : f (c :: t) with
    | some y =>
      simp only [findScan, hfc] at h
      cases h
      exact hf _ _ hfc
    | none =>
      simp only [findScan, hfc] at h
      exact ih x h

/-- A successful bare-GitHub-URL match has a non-empty capture. -/
theorem directUrlAt_ne_nil : ∀ (l cap : Str), directUrlAt l = some cap → cap ≠ [] := by
  intro l cap h
  unfold directUrlAt at h
  dsimp only at h
  split at h
  · split at h
    · exact absurd h (by simp)
    · rename_i hc
      cases h
      simpa [List.isEmpty_iff] using hc
  · exact absurd h (by simp)

/-- Pattern 1 only produces authors with a non-empty name (its guard
requires one). -/
theorem tryPattern1_name (part : Str) (a : Author) :
    tryPattern1 part = some a → a.name ≠ [] := by
  unfold tryPattern1
  intro h
  cases hscan : findScan mdLinkAt part with
  | none => rw [hscan] at h; simp at h
  | some p =>
    obtain ⟨c1, c2⟩ := p
    rw [hscan] at h
    dsimp only at h
    split at h
    · rename_i hcond
      cases h
      simp only [Bool.and_eq_true, Bool.not_eq_true', decide_eq_true_eq] at hcond
      simpa using hcond.1.1
    · simp at h

/-- Pattern 2 only produces authors with a non-empty name. -/
theorem tryPattern2_name (part : Str) (a : Author) :
    tryPattern2 part = some a → a.name ≠ [] := by
  unfold tryPattern2
  intro h
  cases hscan : findScan nameHandleAt part with
  | none => rw [hscan] at h; simp at h
  | some p =>
    obtain ⟨g1, g2⟩ := p
    rw [hscan] at h
    dsimp only at h
    split at h
    · rename_i hcond
      cases h
      simp only [Bool.and_eq_true, Bool.not_eq_true', decide_eq_true_eq] at hcond
      simpa using hcond.1.1
    · simp at h

/-- Pattern 3 names the author after the non-empty username capture. -/
theorem tryPattern3_name (part : Str) (a : Author) :
    tryPattern3 part = some a → a.name ≠ [] := by
  unfold tryPattern3
  intro h
  cases hscan : findScan directUrlAt part with
  | none => rw [hscan] at h; simp at h
  | some github =>
    rw [hscan] at h
    cases h
    exact findScan_prop directUrlAt (fun c => c ≠ []) directUrlAt_ne_nil part github hscan

/-- Pattern 4 only produces authors with a non-empty name. -/
theorem tryPattern4_name (part : Str) (a : Author) :
    tryPattern4 part = some a → a.name ≠ [] := by
  unfold tryPattern4
  intro h
  cases hscan : findScan emailAt part with
  | none => rw [hscan] at h; simp at h
  | some cap =>
    rw [hscan] at h
    dsimp only at h
    split at h
    · rename_i hcond
      cases h
      simp only [Bool.and_eq_true, Bool.not_eq_true', decide_eq_true_eq] at hcond
      simpa using hcond.1
    · simp at h

/-- Pattern 5 only produces authors with a non-empty name. -/
theorem tryPattern5_name (part : Str) (a : Author) :
    tryPattern5 part = some a → a.name ≠ [] := by
  unfold tryPattern5
  intro h
  dsimp only at h
  split at h
  · rename_i hcond
    cases h
    simp only [Bool.and_eq_true, Bool.not_eq_true', decide_eq_true_eq] at hcond
    simpa using hcond.1.1.1.1
  · simp at h

/-- Every author produced for one segment has a non-empty name. -/
theorem parsePart_name_ne_nil (part : Str) (a : Author) :
    parsePart part = some a → a.name ≠ [] := by
  unfold parsePart
  intro h
  split at h
  · exact absurd h (by simp)
  · cases h1 : tryPattern1 part with
    | some b =>
      rw [h1] at h
      cases h
      exact tryPattern1_name part a h1
    | none =>
      rw [h1] at h
      cases h2 : tryPattern2 part with
      | some b =>
        rw [h2] at h
        cases h
        exact tryPattern2_name part a h2
      | none =>
        rw [h2] at h
        cases h3 : tryPattern3 part with
        | some b =>
          rw [h3] at h
          cases h
          exact tryPattern3_name part a h3
        | none =>
          rw [h3] at h
          cases h4 : tryPattern4 part with
          | some b =>
            rw [h4] at h
            cases h
            exact tryPattern4_name part a h4
          | none =>
            rw [h4] at h
            exact tryPattern5_name part a h

/-- C9: every author produced by `parseAuthors` has a non-empty name,
while the handle may be the empty string: a fallback segment longer
than one character with no alphanumeric characters, such as "??",
yields an author whose synthesized handle is empty. -/
theorem parseAuthors_names (text : Str) (a : Author)
    (ha : a ∈ parseAuthors text) :
    a.name ≠ [] ∧ parseAuthors (s2l "??") = [⟨s2l "??", []⟩] := by
  refine ⟨?_, by decide⟩
  unfold parseAuthors at ha
  rcases List.mem_filterMap.mp ha with ⟨part, _, hp⟩
  exact parsePart_name_ne_nil part a hp

/-- Witness for C9 at the pure-punctuation segment "??". -/
theorem parseAuthors_names_witness :
    (Author.mk (s2l "??") []).name ≠ [] ∧
      parseAuthors (s2l "??") = [⟨s2l "??", []⟩] :=
  parseAuthors_names (s2l "??") ⟨s2l "??", []⟩ (by decide)

/-- A line that is not an Author(s) row leaves the authors field of the
scan state untouched. -/
theorem applyRow_authors (st : ScanState) (line : Str)
    (h : isAuthorRow line = false) :
    (applyRow st line).authors = st.authors := by
  unfold applyRow
  repeat' split
  all_goals simp_all

/-- A line that is not a Depends-On row leaves the dependencies field
untouched. -/
theorem applyRow_dependencies (st : ScanState) (line : Str)
    (h : isDependsRow line = false) :
    (applyRow st line).dependencies = st.dependencies := by
  unfold applyRow
  repeat' split
  all_goals simp_all

/-- A line that is not a Replaces row leaves the replaces field
untouched. -/
theorem applyRow_replaces (st : ScanState) (line : Str)
    (h : isReplacesRow line = false) :
    (applyRow st line).replaces = st.replaces := by
  unfold applyRow
  repeat' split
  all_goals simp_all

/-- A line that is not a Superseded-By row leaves the supersededBy
field untouched. -/
theorem applyRow_supersededBy (st : ScanState) (line : Str)
    (h : isSupersededRow line = false) :
    (applyRow st line).supersededBy = st.supersededBy := by
  unfold applyRow
  repeat' split
  all_goals simp_all

/-- With no Author(s) row among the lines, the scan keeps its initial
authors. -/
theorem scanTable_authors (lines : List Str) :
    ∀ st : ScanState, (∀ l ∈ lines, isAuthorRow l = false) →
      (scanTable st lines).authors = st.authors := by
  induction lines with
  | nil => intro st _; rfl
  | cons line rest ih =>
    intro st hall
    have h0 : isAuthorRow line = false := hall line (List.mem_cons_self _ _)
    have hrest : ∀ l ∈ rest, isAuthorRow l = false :=
      fun l hl => hall l (List.mem_cons_of_mem _ hl)
    unfold scanTable
    split
    · exact ih st hrest
    · split
      · rw [ih _ hrest]
      · split
        · exact ih st hrest
        · split
          · rfl
          · rw [ih _ hrest]
            exact applyRow_authors st line h0

/-- With no Depends-On row among the lines, the scan keeps its initial
dependencies. -/
theorem scanTable_dependencies (lines : List Str) :
    ∀ st : ScanState, (∀ l ∈ lines, isDependsRow l = false) →
      (scanTable st lines).dependencies = st.dependencies := by
  induction lines with
  | nil => intro st _; rfl
  | cons line rest ih =>
    intro st hall
    have h0 : isDependsRow line = false := hall line (List.mem_cons_self _ _)
    have hrest : ∀ l ∈ rest, isDependsRow l = false :=
      fun l hl => hall l (List.mem_cons_of_mem _ hl)
    unfold scanTable
    split
    · exact ih st hrest
    · split
      · rw [ih _ hrest]
      · split
        · exact ih st hrest
        · split
          · rfl
          · rw [ih _ hrest]
            exact applyRow_dependencies st line h0

/-- With no Replaces row among the lines, the scan keeps its initial
replaces list. -/
theorem scanTable_replaces (lines : List Str) :
    ∀ st : ScanState, (∀ l ∈ lines, isReplacesRow l = false) →
      (scanTable st lines).replaces = st.replaces := by
  induction lines with
  | nil => intro st _; rfl
  | cons line rest ih =>
    intro st hall
    have h0 : isReplacesRow line = false := hall line (List.mem_cons_self _ _)
    have hrest : ∀ l ∈ rest, isReplacesRow l = false :=
      fun l hl => hall l (List.mem_cons_of_mem _ hl)
    unfold scanTable
    split
    · exact ih st hrest
    · split
      · rw [ih _ hrest]
      · split
        · exact ih st hrest
        · split
          · rfl
          · rw [ih _ hrest]
            exact applyRow_replaces st line h0

/-- With no Superseded-By row among the lines, the scan keeps its
initial supersededBy list. -/
theorem scanTable_supersededBy (lines : List Str) :
    ∀ st : ScanState, (∀ l ∈ lines, isSupersededRow l = false) →
      (scanTable st lines).supersededBy = st.supersededBy := by
  induction lines with
  | nil => intro st _; rfl
  | cons line rest ih =>
    intro st hall
    have h0 : isSupersededRow line = false := hall line (List.mem_cons_self _ _)
    have hrest : ∀ l ∈ rest, isSupersededRow l = false :=
      fun l hl => hall l (List.mem_cons_of_mem _ hl)
    unfold scanTable
    split
    · exact ih st hrest
    · split
      · rw [ih _ hrest]
      · split
        · exact ih st hrest
        · split
          · rfl
          · rw [ih _ hrest]
            exact applyRow_supersededBy st line h0

/-- C1: `parseACPMarkdown` rejects a document (returns none) exactly
when, after scanning the metadata table, the title, the status or the
track is still empty; every record it returns has non-empty title,
status and track; and a document with no Author(s), Depends-On,
Replaces or Superseded-By row yields the empty collection for the
corresponding field. -/
theorem parseACPMarkdown_validation (md n f : Str) :
    (parseACPMarkdown md n f = none ↔
      (scanTable initScan (linesOf md)).title = [] ∨
      (scanTable initScan (linesOf md)).status = [] ∨
      (scanTable initScan (linesOf md)).track = []) ∧
    (∀ r, parseACPMarkdown md n f = some r →
      r.title ≠ [] ∧ r.status ≠ [] ∧ r.track ≠ []) ∧
    ((∀ l ∈ linesOf md, isAuthorRow l = false) →
      ∀ r, parseACPMarkdown md n f = some r → r.authors = []) ∧
    ((∀ l ∈ linesOf md, isDependsRow l = false) →
      ∀ r, parseACPMarkdown md n f = some r → r.dependencies = []) ∧
    ((∀ l ∈ linesOf md, isReplacesRow l = false) →
      ∀ r, parseACPMarkdown md n f = some r → r.replaces = []) ∧
    ((∀ l ∈ linesOf md, isSupersededRow l = false) →
      ∀ r, parseACPMarkdown md n f = some r → r.supersededBy = []) := by
  refine ⟨?_, ?_, ?_, ?_, ?_, ?_⟩
  · unfold parseACPMarkdown
    dsimp only
    split
    · rename_i hc
      simp only [Bool.or_eq_true, List.isEmpty_iff, or_assoc] at hc
      exact iff_of_true rfl hc
    · rename_i hc
      simp only [Bool.or_eq_true, List.isEmpty_iff, or_assoc] at hc
      exact iff_of_false (by simp) hc
  · intro r hr
    unfold parseACPMarkdown at hr
    dsimp only at hr
    split at hr
    · exact absurd hr (by simp)
    · rename_i hc
      simp only [Bool.or_eq_true, List.isEmpty_iff, or_assoc, not_or] at hc
      cases hr
      exact ⟨hc.1, hc.2.1, hc.2.2⟩
  · intro hall r hr
    unfold parseACPMarkdown at hr
    dsimp only at hr
    split at hr
    · exact absurd hr (by simp)
    · cases hr
      exact scanTable_authors (linesOf md) initScan hall
  · intro hall r hr
    unfold parseACPMarkdown at hr
    dsimp only at hr
    split at hr
    · exact absurd hr (by simp)
    · cases hr
      exact scanTable_dependencies (linesOf md) initScan hall
  · intro hall r hr
    unfold parseACPMarkdown at hr
    dsimp only at hr
    split at hr
    · exact absurd hr (by simp)
    · cases hr
      exact scanTable_replaces (linesOf md) initScan hall
  · intro hall r hr
    unfold parseACPMarkdown at hr
    dsimp only at hr
    split at hr
    · exact absurd hr (by simp)
    · cases hr
      exact scanTable_supersededBy (linesOf md) initScan hall

/-- Witness for C1 at a concrete document with Title/Status/Track rows
only: a record is produced and its four reference collections are
empty. -/
theorem parseACPMarkdown_validation_witness :
    (parseACPMarkdown validMd (s2l "9") (s2l "9-t")).map
        (fun r => (r.authors, r.dependencies, r.replaces, r.supersededBy))
      = some ([], [], [], []) ∧
    parseACPMarkdown validMd (s2l "9") (s2l "9-t") ≠ none := by
  have h := parseACPMarkdown_validation validMd (s2l "9") (s2l "9-t")
  constructor
  · cases hp : parseACPMarkdown validMd (s2l "9") (s2l "9-t") with
    | none => exact absurd (h.1.mp hp) (by decide)
    | some r =>
      have h3 := h.2.2.1 (by decide) r hp
      have h4 := h.2.2.2.1 (by decide) r hp
      have h5 := h.2.2.2.2.1 (by decide) r hp
      have h6 := h.2.2.2.2.2 (by decide) r hp
      simp [h3, h4, h5, h6]
  · intro hn
    exact absurd (h.1.mp hn) (by decide)

/-- The single left-to-right alternation scan of the status regex
equals taking the earlier of the two independently located
alternatives. -/
theorem statusScan_eq_earliest :
    ∀ (l : Str) (prev : Option Char),
      statusScan prev l = earliestMatch (findBracketIdx l) (findVocabIdx prev l) := by
  intro l
  induction l with
  | nil => intro prev; rfl
  | cons c t ih =>
    intro prev
    unfold statusScan findBracketIdx findVocabIdx
    cases hb : bracketAt (c :: t) with
    | some cap =>
      cases hv : vocabWordAt prev (c :: t) with
      | some w => simp [earliestMatch]
      | none =>
        cases hfv : findVocabIdx (some c) t with
        | some jc => simp [earliestMatch]
        | none => simp [earliestMatch]
    | none =>
      cases hv : vocabWordAt prev (c :: t) with
      | some w =>
        cases hfb : findBracketIdx t with
        | some ic => simp [earliestMatch]
        | none => simp [earliestMatch]
      | none =>
        rw [ih (some c)]
        cases hfb : findBracketIdx t with
        | some ic =>
          cases hfv : findVocabIdx (some c) t with
          | some jc =>
            simp only [earliestMatch, Option.map_some']
            split
            · rw [if_pos (by omega)]
            · rw [if_neg (by omega)]
          | none => simp [earliestMatch]
        | none =>
          cases hfv : findVocabIdx (some c) t with
          | some jc => simp [earliestMatch]
          | none => simp [earliestMatch]

/-- C4 (amended): `parseStatus` takes whichever of the first bracketed
label and the first status-vocabulary word occurs earliest in the
cleaned cell (bracket preferred at the same position) — not the
bracket label unconditionally — falls back to the cleaned cell text,
strips every parenthesized segment (not only a trailing one), trims,
and normalizes an empty result to "Unknown". -/
theorem parseStatus_spec (text : Str) : parseStatus text = parseStatusSpec text := by
  unfold parseStatus parseStatusSpec
  dsimp only
  rw [statusScan_eq_earliest]

/-- C4 counterexample: a vocabulary word occurring before a markdown
link wins, so the link label is not preferred ("Proposed" instead of
"Foo"); and every parenthetical is stripped, not only a trailing one
("b" instead of "(a) b"). -/
theorem parseStatus_counterexample :
    (parseStatus (s2l "Proposed [Foo](https://x)") = s2l "Proposed" ∧
      s2l "Proposed" ≠ s2l "Foo") ∧
    (parseStatus (s2l "(a) b (c)") = s2l "b" ∧ s2l "b" ≠ s2l "(a) b") := by
  decide

/-- Once past the Track row, the fallback loop is the first-hit search
of the amended claim. -/
theorem fallbackScan_true_eq : ∀ ls : List Str, fallbackScan true ls = specFind ls := by
  intro ls
  induction ls with
  | nil => rfl
  | cons l rest ih =>
    unfold fallbackScan specFind
    by_cases hbrk : isBreakLine l = true
    · simp [hbrk, List.find?]
    · by_cases htrk : isTrackMarkerLine l = true
      · simp only [hbrk, htrk, Bool.true_and, Bool.false_and, Bool.and_true,
          Bool.not_true, Bool.false_eq_true, if_false, if_true, List.find?,
          Bool.false_or, ite_true, ite_false]
        rw [ih]
        rfl
      · by_cases hcand : fallbackCandidate l = true
        · simp [hbrk, htrk, hcand, List.find?]
        · simp [hbrk, htrk, hcand, List.find?, ih]
          rfl

/-- Before the Track row, the fallback loop skips every line (a `##`
line does not abort yet), so the whole loop is: drop through the first
Track row, then search. -/
theorem fallbackScan_false_eq : ∀ ls : List Str, fallbackScan false ls = specFallback ls := by
  intro ls
  induction ls with
  | nil => rfl
  | cons l rest ih =>
    unfold fallbackScan specFallback
    by_cases htrk : isTrackMarkerLine l = true
    · rw [if_neg (by simp), if_pos htrk]
      rw [fallbackScan_true_eq rest]
      have : (l :: rest).dropWhile (fun x => !isTrackMarkerLine x) = l :: rest := by
        rw [List.dropWhile_cons]
        simp [htrk]
      rw [this]
      rfl
    · rw [if_neg (by simp), if_neg (by simp [htrk]), if_neg (by simp)]
      rw [ih]
      unfold specFallback
      have : (l :: rest).dropWhile (fun x => !isTrackMarkerLine x)
          = rest.dropWhile (fun x => !isTrackMarkerLine x) := by
        rw [List.dropWhile_cons]
        simp [htrk]
      rw [this]

/-- The first element surviving `dropWhile` fails the predicate. -/
theorem dropWhile_head (p : Char → Bool) :
    ∀ (l : Str) (c : Char) (rest : Str), l.dropWhile p = c :: rest → p c = false := by
  intro l
  induction l with
  | nil => intro c rest h; exact absurd h (by simp)
  | cons x t ih =>
    intro c rest h
    rw [List.dropWhile_cons] at h
    by_cases hx : p x = true
    · rw [if_pos hx] at h
      exact ih c rest h
    · rw [if_neg hx] at h
      cases h
      exact Bool.eq_false_iff.mpr hx

/-- A non-empty trimmed string starts with a non-whitespace
character. -/
theorem trimStr_head_not_ws (s : Str) (c : Char) (rest : Str)
    (h : trimStr s = c :: rest) : isWsChar c = false := by
  unfold trimStr at h
  obtain ⟨w, hw⟩ := (List.dropWhile_suffix (l := (s.dropWhile isWsChar).reverse)
    (p := isWsChar))
  have h2 := congrArg List.reverse hw
  rw [List.reverse_append] at h2
  rw [h] at h2
  rw [List.reverse_reverse] at h2
  exact dropWhile_head isWsChar s c (rest ++ w.reverse) (by rw [← h2]; simp)

/-- The front-to-back `lastIndexOf(' ')` computation and the
reverse-and-drop description of the cut coincide: either there is no
space, or the last space sits at index `i` and everything before it is
what the reverse formulation keeps. -/
theorem lastSpaceIdx_rel (t : Str) :
    (lastSpaceIdx t = none ∧ t.reverse.dropWhile (fun c => c ≠ ' ') = []) ∨
    (∃ i rest, lastSpaceIdx t = some i ∧
      t.reverse.dropWhile (fun c => c ≠ ' ') = ' ' :: rest ∧
      rest.reverse = t.take i) := by
  induction t with
  | nil => exact Or.inl ⟨rfl, rfl⟩
  | cons c u ih =>
    rcases ih with ⟨h1, h2⟩ | ⟨i, rest, h1, h2, h3⟩
    · by_cases hc : c = ' '
      · refine Or.inr ⟨0, [], ?_, ?_, ?_⟩
        · unfold lastSpaceIdx
          rw [h1, hc]
          simp
        · rw [List.reverse_cons, List.dropWhile_append, h2]
          simp [hc]
        · simp
      · refine Or.inl ⟨?_, ?_⟩
        · unfold lastSpaceIdx
          rw [h1]
          simp [hc]
        · rw [List.reverse_cons, List.dropWhile_append, h2]
          simp [hc]
    · refine Or.inr ⟨i + 1, rest ++ [c], ?_, ?_, ?_⟩
      · unfold lastSpaceIdx
        rw [h1]
      · rw [List.reverse_cons, List.dropWhile_append, h2]
        simp
      · rw [List.reverse_append, h3]
        simp

/-- A last-space index of zero forces the string to start with a
space. -/
theorem lastSpaceIdx_zero (t : Str) (h : lastSpaceIdx t = some 0) :
    ∃ rest, t = ' ' :: rest := by
  cases t with
  | nil => exact absurd h (by simp [lastSpaceIdx])
  | cons c u =>
    unfold lastSpaceIdx at h
    cases hu : lastSpaceIdx u with
    | some i => rw [hu] at h; simp at h
    | none =>
      rw [hu] at h
      by_cases hc : c = ' '
      · exact ⟨u, by rw [hc]⟩
      · rw [if_neg hc] at h
        exact absurd h (by simp)

/-- C3 (amended): `extractAbstract` returns the trimmed Abstract-regex
capture when the pattern matches, truncated at the last space before
the 200-character cut with an ellipsis when longer than 200; otherwise
it returns the first non-empty, non-table, non-heading line after the
Track table row — giving up at the first `##` line past the Track row —
truncated at exactly 200 characters with an ellipsis (no word-boundary
search); otherwise the abstract is empty. -/
theorem extractAbstract_amended (md : Str) :
    extractAbstract md =
      match abstractCapture md with
      | some cap =>
        if (trimStr cap).length > 200 then truncateAtLastSpace (trimStr cap)
        else trimStr cap
      | none =>
        match specFallback (linesOf md) with
        | some line =>
          if line.length > 200 then line.take 200 ++ s2l "..." else line
        | none => [] := by
  unfold extractAbstract
  cases hcap : abstractCapture md with
  | none =>
    dsimp only
    rw [fallbackScan_false_eq (linesOf md)]
  | some cap =>
    dsimp only
    by_cases hlen : (trimStr cap).length > 200
    · rw [if_pos hlen, if_pos hlen]
      unfold truncateAtLastSpace
      rcases lastSpaceIdx_rel ((trimStr cap).take 200) with ⟨h1, h2⟩ | ⟨i, rest, h1, h2, h3⟩
      · rw [h1, h2]
        rw [List.take_take]
        rfl
      · have hipos : 0 < i := by
          rcases Nat.eq_zero_or_pos i with hz | hp
          · exfalso
            rw [hz] at h1
            obtain ⟨r0, hr0⟩ := lastSpaceIdx_zero _ h1
            cases ht : trimStr cap with
            | nil => rw [ht] at hlen; simp at hlen
            | cons c0 u0 =>
              have hc0 : isWsChar c0 = false := trimStr_head_not_ws cap c0 u0 ht
              rw [ht] at hr0
              have : (c0 :: u0).take 200 = c0 :: u0.take 199 := rfl
              rw [this] at hr0
              cases hr0
              simp [isWsChar] at hc0
          · exact hp
        rw [h1, h2]
        dsimp only
        rw [if_pos hipos, h3]
    · rw [if_neg hlen, if_neg hlen]

set_option maxRecDepth 100000 in
/-- C3 counterexample: on a document with no Abstract section, the
fallback line is truncated at exactly 200 characters, not at the last
whitespace boundary as the claim states. -/
theorem extractAbstract_counterexample :
    extractAbstract fallbackDoc = fallbackLine.take 200 ++ s2l "..." ∧
    fallbackLine.take 200 ++ s2l "..." ≠ truncateAtLastSpace fallbackLine := by
  constructor
  · decide
  · decide

end ACP
